import Mathlib

/-!
Verification of the crossword CSP solver in `pset3/crossword/generate.py`
(class `CrosswordCreator`) and `pset3/crossword/helpers.py`.

Shallow embedding conventions:
* Python strings become `List Char`; Python sets and dicts become association
  lists that record iteration/insertion order (a Python `set`/`dict` iterates
  in a fixed order; modelling that order as a list makes the heuristics'
  tie-breaking behaviour explicit and every definition executable).
* `self.domains` becomes `Domains := List (Variable × List Word)`;
  mutation becomes explicit state passing.
* The `while` loop of `ac3` is embedded with a fuel parameter; a proved
  theorem shows a computable fuel bound after which the result is stable,
  which is the termination argument for the loop.  The recursion of
  `backtrack` is likewise fuelled (fuel only ever turns an answer into
  `none`, never fabricates an assignment).
* The `Variable` and `Crossword` classes come from the course-distributed
  `crossword.py`, which is not part of the repository sources; they are
  modelled from the spec (section 3 "Slot Model") as an abstract structure:
  a slot list, an overlap table, and the derived neighbour relation.
-/

/-- Modelled from the spec: a slot's orientation, `ACROSS` or `DOWN`
(`crossword.py`'s `Variable.ACROSS` / `Variable.DOWN`). -/
inductive Direction where
  | across : Direction
  | down : Direction
deriving DecidableEq, Repr

/-- Modelled from the spec: a slot, identified by start row, start column,
orientation and length (`crossword.py`'s `Variable`). -/
structure Variable where
  i : Nat
  j : Nat
  direction : Direction
  length : Nat
deriving DecidableEq, Repr

/-- A candidate word: a Python string as a list of characters. -/
abbrev Word := List Char

/-- `self.domains`: mapping slot → list of words still possible (a Python
dict of sets, in iteration order). -/
abbrev Domains := List (Variable × List Word)

/-- A partial assignment slot → word (a Python dict, in insertion order). -/
abbrev Assignment := List (Variable × Word)

/-- The ac3 worklist: a Python dict keyed by ordered slot pairs whose values
are the (possibly absent) overlap offsets, in insertion order. -/
abbrev Queue := List ((Variable × Variable) × Option (Nat × Nat))

/-- `word[k]` with an explicit default. Python raises `IndexError` out of
range; every in-scope access is either length-guarded by the source or
proved in range, so the default never shows through. -/
def charAt (w : Word) (k : Nat) : Char := w.getD k ' '

/-- `self.domains[x]` (missing slot ↦ `[]`; the solver only ever reads
slots that are keys of the dict). -/
def domGet : Domains → Variable → List Word
  | [], _ => []
  | e :: rest, x => if e.1 = x then e.2 else domGet rest x

/-- `self.domains[x] = ws` on the first matching entry; a no-op when `x` is
not a key (the solver only ever writes existing keys). -/
def domSet : Domains → Variable → List Word → Domains
  | [], _, _ => []
  | e :: rest, x, ws => if e.1 = x then (e.1, ws) :: rest else e :: domSet rest x ws

/-- Total number of candidate words across all domains. -/
def totalSize (d : Domains) : Nat := (d.map (fun e => e.2.length)).sum

/-- `assignment[v]` as an option (`None` when `v` is not a key). -/
def aLookup : Assignment → Variable → Option Word
  | [], _ => none
  | e :: rest, v => if e.1 = v then some e.2 else aLookup rest v

/-- `assignment[v] = w`: update the existing entry, else append. -/
def aSet (a : Assignment) (v : Variable) (w : Word) : Assignment :=
  if (aLookup a v).isSome then a.map (fun e => if e.1 = v then (v, w) else e)
  else a ++ [(v, w)]

/-- Modelled from the spec: the already-parsed crossword structure that
`crossword.py` builds — the slot set (in iteration order) and the overlap
table `self.crossword.overlaps`, a dict keyed by ordered slot pairs. -/
structure Crossword where
  /-- `self.crossword.variables` (named `vars` because `variables` is a Lean
  keyword). -/
  vars : List Variable
  overlaps : Queue

/-- Lookup in the overlap dict (absent key ↦ `none`; in `crossword.py`
every ordered pair of distinct slots is a key). -/
def olookup : Queue → Variable × Variable → Option (Nat × Nat)
  | [], _ => none
  | e :: rest, k => if e.1 = k then e.2 else olookup rest k

/-- `self.crossword.overlaps[x, y]`. -/
def Crossword.overlapAt (c : Crossword) (x y : Variable) : Option (Nat × Nat) :=
  olookup c.overlaps (x, y)

/-- Modelled from the spec: `crossword.py`'s `neighbors(var)` — the slots
distinct from `var` whose overlap entry with `var` is present (a non-`None`
offset pair is truthy in Python). -/
def Crossword.neighbors (c : Crossword) (v : Variable) : List Variable :=
  c.vars.filter (fun u => decide (u ≠ v) && decide (c.overlapAt u v ≠ none))

/-- Well-formedness of the modelled crossword: the slot list has no
duplicates and the overlap dict's keys are slot pairs. -/
def Crossword.WF (c : Crossword) : Prop :=
  c.vars.Nodup ∧ ∀ e ∈ c.overlaps, e.1.1 ∈ c.vars ∧ e.1.2 ∈ c.vars

/-- `enforce_node_consistency` (generate.py:98-107): for every slot, drop the
words whose length differs from the slot's length.  Removing elements from a
set while iterating over a deep copy of it is a filter. -/
def enforce_node_consistency (d : Domains) : Domains :=
  d.map (fun e => (e.1, e.2.filter (fun w => decide (e.1.length = w.length))))

/-- The support test inside `revise` (generate.py:131-134): `domainY` has
length greater than the overlap offset `charY`, `domainX` than `charX`, the
two words differ, and the overlap characters agree. -/
def supports (cx cy : Nat) (wx wy : Word) : Bool :=
  decide (cy < wy.length) && decide (cx < wx.length) &&
    (decide (wx ≠ wy) && decide (charAt wx cx = charAt wy cy))

/-- `revise` (generate.py:109-139), abstracted over the character accessor so
that the guardedness of the character comparisons can be stated: the source
only compares `domainX[charX]` with `domainY[charY]` under explicit length
checks.  Returns the `revised` flag and the updated domains; removing from
`self.domains[x]` while iterating over a deep copy is a filter, and the flag
is set exactly when some word had no support. -/
def reviseGen (chr : Word → Nat → Char) (c : Crossword) (d : Domains)
    (x y : Variable) : Bool × Domains :=
  match c.overlapAt x y with
  | none => (false, d)
  | some (cx, cy) =>
    let sup : Word → Bool := fun wx =>
      (domGet d y).any (fun wy =>
        decide (cy < wy.length) && decide (cx < wx.length) &&
          (decide (wx ≠ wy) && decide (chr wx cx = chr wy cy)))
    ((domGet d x).any (fun wx => ! sup wx),
      domSet d x ((domGet d x).filter sup))

/-- `revise` proper: the character accessor is Python string indexing. -/
def revise (c : Crossword) (d : Domains) (x y : Variable) : Bool × Domains :=
  reviseGen charAt c d x y

/-- `helpers.removeNone` (helpers.py:15-22): drop the arcs whose overlap
entry is `None`. -/
def removeNone (queue : Queue) : Queue :=
  queue.filter (fun e => decide (e.2 ≠ none))

/-- `helpers.deQueue` (helpers.py:3-12): pop the dict's first item (an empty
queue yields `none`). -/
def deQueue (queue : Queue) : Option (((Variable × Variable) × Option (Nat × Nat)) × Queue) :=
  match queue with
  | [] => none
  | e :: rest => some (e, rest)

/-- `queue[z, arc[0]] = ...` (generate.py:167): Python dict assignment —
update an existing key in place, else append. -/
def dictSet (queue : Queue) (k : Variable × Variable) (v : Option (Nat × Nat)) : Queue :=
  if (queue.map Prod.fst).contains k then
    queue.map (fun e => if e.1 = k then (k, v) else e)
  else queue ++ [(k, v)]

/-- The re-enqueueing step of `ac3` (generate.py:163-167): for every
neighbour `z` of `arc[0]` other than `arc[1]`, enqueue `(z, arc[0])`. -/
def enqueueNeighbors (c : Crossword) (x y : Variable) (queue : Queue) : Queue :=
  (c.neighbors x).foldl
    (fun acc z => if z = y then acc else dictSet acc (z, x) (c.overlapAt z x))
    queue

/-- The `while queue != {}` loop of `ac3` (generate.py:157-168), fuelled.
Each iteration pops the first arc (`helpers.deQueue`), runs `revise`, fails
when the revised domain emptied, else re-enqueues the incoming arcs of
`arc[0]`.  The third component counts the productive revisions.  Exhausted
fuel reports the current state as success; `ac3Go_fuel_irrelevant` proves
the fuel bound `ac3Fuel` is always sufficient, so `ac3` below never hits
that case. -/
def ac3Go (c : Crossword) : Nat → Domains → Queue → Bool × Domains × Nat
  | 0, d, _ => (true, d, 0)
  | fuel + 1, d, queue =>
    match queue with
    | [] => (true, d, 0)
    | (arc, _) :: rest =>
      let r := revise c d arc.1 arc.2
      if r.1 then
        if (domGet r.2 arc.1).length = 0 then (false, r.2, 1)
        else
          let out := ac3Go c fuel r.2 (enqueueNeighbors c arc.1 arc.2 rest)
          (out.1, out.2.1, out.2.2 + 1)
      else ac3Go c fuel d rest

/-- A sufficient fuel for `ac3Go` (proved sufficient in `ac3Go_fuel_irrelevant`):
every popped arc either shrinks the queue or removes a word while enqueueing
at most one arc per slot. -/
def ac3Fuel (c : Crossword) (d : Domains) (queue : Queue) : Nat :=
  queue.length + totalSize d * (c.vars.length + 1) + 1

/-- `ac3` (generate.py:141-168): with `arcs = None` start from all arcs of
the problem (`removeNone` of a copy of the overlap dict), else from the
given arcs. -/
def ac3 (c : Crossword) (d : Domains) (arcs : Option Queue) : Bool × Domains × Nat :=
  match arcs with
  | none => ac3Go c (ac3Fuel c d (removeNone c.overlaps)) d (removeNone c.overlaps)
  | some queue => ac3Go c (ac3Fuel c d queue) d queue

/-- `assignment_complete` (generate.py:170-183): every crossword variable is
assigned.  (The `is not None` value check of the source is vacuous here
because modelled assignment values are words.) -/
def assignment_complete (c : Crossword) (a : Assignment) : Bool :=
  decide (a.length = c.vars.length)

/-- The per-slot neighbour check of `consistent` (generate.py:199-203): for
every neighbour present in the assignment, the overlap characters agree.
(An absent overlap entry would raise in Python; it is unreachable because
`neighbors` only returns slots with a present overlap entry.) -/
def neighborOk (c : Crossword) (full : Assignment) (v : Variable) (w : Word) : Bool :=
  (c.neighbors v).all (fun nb =>
    match aLookup full nb, c.overlapAt v nb with
    | some wnb, some (i, j) => decide (charAt w i = charAt wnb j)
    | _, _ => true)

/-- The loop of `consistent` (generate.py:185-207) over the assignment's
items, carrying the `words` set of values seen so far. -/
def consistentGo (c : Crossword) (full : Assignment) : Assignment → List Word → Bool
  | [], _ => true
  | (v, w) :: rest, words =>
    if w.length ≠ v.length then false
    else if w ∈ words then false
    else if neighborOk c full v w then consistentGo c full rest (w :: words)
    else false

/-- `consistent` (generate.py:185-207). -/
def consistent (c : Crossword) (a : Assignment) : Bool :=
  consistentGo c a a []

/-- The `rulesOut` counter of `order_domain_values` (generate.py:218-223):
the number of neighbours whose current domain contains the value. -/
def rulesOut (c : Crossword) (d : Domains) (v : Variable) (value : Word) : Nat :=
  ((c.neighbors v).filter (fun nb => decide (value ∈ domGet d nb))).length

/-- `order_domain_values` (generate.py:210-227): pair each word of the
domain with its `rulesOut` count, sort ascending by count (Python's `sorted`
is stable, as is `List.insertionSort`), project the words. -/
def order_domain_values (c : Crossword) (d : Domains) (v : Variable) : List Word :=
  (((domGet d v).map (fun w => (w, rulesOut c d v w))).insertionSort
    (fun p q => p.2 ≤ q.2)).map Prod.fst

/-- `select_unassigned_variable` (generate.py:230-248): pair each
unassigned variable with its domain size, sort ascending by size (stable),
return the first.  (On an empty candidate list the source would raise
`IndexError`; that is modelled as `none` and is unreachable from `solve`.) -/
def select_unassigned_variable (c : Crossword) (d : Domains) (a : Assignment) :
    Option Variable :=
  match ((c.vars.filter (fun v => (aLookup a v).isNone)).map
      (fun v => (v, (domGet d v).length))).insertionSort (fun p q => p.2 ≤ q.2) with
  | [] => none
  | e :: _ => some e.1

/-- `self.domains[var].add(oldValue)` over `inferenceValues`
(generate.py:282-283): Python set insertion, a no-op on a present element. -/
def setAdd (ws : List Word) (w : Word) : List Word :=
  if w ∈ ws then ws else ws ++ [w]

/-- The restoration step of `backtrack` (generate.py:281-283). -/
def restore (d : Domains) (v : Variable) (inferenceValues : List Word) : Domains :=
  domSet d v (inferenceValues.foldl setAdd (domGet d v))

/-- One iteration of `backtrack`'s candidate loop (generate.py:266-283),
with the recursive call passed as `bt`.  The state is (result so far,
domains): once a candidate has succeeded the remaining candidates are
skipped (`return result`, generate.py:280); otherwise the candidate is
tried: `new_assignment` extends a deep copy of the frame's assignment,
`domains[var]` is restricted to the candidate while `inferenceValues`
records the removed words, `ac3()` runs on the full arc set, and on any
failure only `inferenceValues` is added back into `domains[var]` — exactly
as the source does. -/
def tryStep (c : Crossword) (bt : Domains → Assignment → Option Assignment × Domains)
    (a : Assignment) (var : Variable)
    (st : Option Assignment × Domains) (value : Word) : Option Assignment × Domains :=
  match st with
  | (some result, d1) => (some result, d1)
  | (none, d1) =>
    let newAssignment := aSet a var value
    let inferenceValues := (domGet d1 var).filter (fun w => decide (w ≠ value))
    let d2 := domSet d1 var ((domGet d1 var).filter (fun w => decide (w = value)))
    let r := ac3 c d2 none
    let attempt :=
      if r.1 && consistent c newAssignment then bt r.2.1 newAssignment
      else (none, r.2.1)
    match attempt with
    | (some result, d3) => (some result, d3)
    | (none, d3) => (none, restore d3 var inferenceValues)

/-- `backtrack` (generate.py:251-285), fuelled (one unit per recursion
frame; fuel exhaustion returns failure, never an assignment). -/
def backtrack (c : Crossword) : Nat → Domains → Assignment → Option Assignment × Domains
  | 0, d, _ => (none, d)
  | fuel + 1, d, a =>
    if assignment_complete c a then (some a, d)
    else
      match select_unassigned_variable c d a with
      | none => (none, d)
      | some var =>
        (order_domain_values c d var).foldl (tryStep c (backtrack c fuel) a var) (none, d)

/-- `solve` (generate.py:90-96): node consistency, then `ac3` — whose result
the source discards — then `backtrack` from the empty assignment. -/
def solve (c : Crossword) (fuel : Nat) (d : Domains) : Option Assignment × Domains :=
  let d1 := enforce_node_consistency d
  let r := ac3 c d1 none
  backtrack c fuel r.2.1 []

/-- `solve` with its control flow made observable: the Boolean records
whether the `return self.backtrack(dict())` line runs.  In the source it
runs unconditionally — line 95 calls `self.ac3()` without inspecting its
return value — so the flag is the literal constant `true`. -/
def solveTraced (c : Crossword) (fuel : Nat) (d : Domains) :
    (Option Assignment × Domains) × Bool :=
  let d1 := enforce_node_consistency d
  let r := ac3 c d1 none
  (backtrack c fuel r.2.1 [], true)

/-! Concrete instances: small crosswords and domain states used to witness
and refute the claims.  All are chosen to be runs the program can reach
(domains are per-slot dictionaries, filtered by length where relevant). -/

/-- The word "ab". -/
def wAB : Word := ['a', 'b']
/-- The word "ac". -/
def wAC : Word := ['a', 'c']
/-- The word "cd". -/
def wCD : Word := ['c', 'd']
/-- The word "aa". -/
def wAA : Word := ['a', 'a']
/-- The word "bb". -/
def wBB : Word := ['b', 'b']
/-- The word "ax". -/
def wAX : Word := ['a', 'x']

/-- A length-2 ACROSS slot at row 0, column 0. -/
def vA : Variable := ⟨0, 0, Direction.across, 2⟩
/-- A length-2 DOWN slot at row 0, column 0. -/
def vD : Variable := ⟨0, 0, Direction.down, 2⟩
/-- A length-2 DOWN slot at row 0, column 3, disjoint from the others. -/
def vT : Variable := ⟨0, 3, Direction.down, 2⟩
/-- A length-2 DOWN slot at row 0, column 1. -/
def vW : Variable := ⟨0, 1, Direction.down, 2⟩
/-- A length-3 ACROSS slot at row 2, column 0. -/
def vL3 : Variable := ⟨2, 0, Direction.across, 3⟩

/-- Two crossing length-2 slots sharing their first characters; the solvable
witness instance. -/
def cW : Crossword :=
  ⟨[vA, vD], [((vA, vD), some (0, 0)), ((vD, vA), some (0, 0))]⟩

/-- Dictionary {"ab", "ac"} for `cW`. -/
def dW : Domains := [(vA, [wAB, wAC]), (vD, [wAB, wAC])]

/-- `cW` plus a third, disjoint length-2 slot: unsatisfiable because the
dictionary only has two length-2 words, both consumed by the cross.  The
instance on which `backtrack` fails to restore its prunings. -/
def cB : Crossword :=
  ⟨[vA, vD, vT],
    [((vA, vD), some (0, 0)), ((vA, vT), none), ((vD, vA), some (0, 0)),
      ((vD, vT), none), ((vT, vA), none), ((vT, vD), none)]⟩

/-- Dictionary {"ab", "ac"} for `cB`. -/
def dB : Domains := [(vA, [wAB, wAC]), (vD, [wAB, wAC]), (vT, [wAB, wAC])]

/-- An ACROSS slot crossed by two DOWN slots: `vD` at its character 0 and
`vW` at its character 1.  Propagation empties `vA`'s domain because no word
supplies the second crossing. -/
def cC2 : Crossword :=
  ⟨[vA, vD, vW],
    [((vA, vD), some (0, 0)), ((vA, vW), some (1, 0)), ((vD, vA), some (0, 0)),
      ((vD, vW), none), ((vW, vA), some (0, 1)), ((vW, vD), none)]⟩

/-- Dictionary {"ab", "ac"} for `cC2`. -/
def dC2 : Domains := [(vA, [wAB, wAC]), (vD, [wAB, wAC]), (vW, [wAB, wAC])]

/-- Two crossing slots whose domains hold the single word "ab": the word
supports itself character-wise, but `revise`'s `domainX != domainY` test
refuses that support. -/
def d4 : Domains := [(vA, [wAB]), (vD, [wAB])]

/-- A length-2 slot and a disjoint length-3 slot. -/
def c5 : Crossword := ⟨[vA, vL3], [((vA, vL3), none), ((vL3, vA), none)]⟩

/-- Dictionary {"ab"} for `c5`: node consistency empties `vL3`'s domain. -/
def d5 : Domains := [(vA, [wAB]), (vL3, [wAB])]

/-- Degree-heuristic instance: `vA` has one neighbour (`vD`), `vT6` has two
(`vD` and `vW`); `vA` and `vT6` tie on domain size. -/
def vT6 : Variable := ⟨4, 0, Direction.across, 2⟩

/-- Crossword for the variable-selection counterexample. -/
def c6 : Crossword :=
  ⟨[vA, vT6, vD, vW],
    [((vA, vD), some (0, 0)), ((vD, vA), some (0, 0)),
      ((vT6, vD), some (0, 1)), ((vD, vT6), some (1, 0)),
      ((vT6, vW), some (1, 0)), ((vW, vT6), some (0, 1))]⟩

/-- Domains for `c6`: `vA` and `vT6` have one candidate each, the rest two. -/
def d6 : Domains :=
  [(vA, [wAB]), (vT6, [wCD]), (vD, [wAB, wCD]), (vW, [wAB, wCD])]

/-- Value-ordering instance: `vA` crosses `vD` at character 0 and `vW` at
character 1. -/
def c7 : Crossword :=
  ⟨[vA, vD, vW],
    [((vA, vD), some (0, 0)), ((vD, vA), some (0, 0)),
      ((vA, vW), some (1, 0)), ((vW, vA), some (0, 1))]⟩

/-- Domains for `c7`: choosing "aa" for `vA` prunes only `vD`'s domain;
choosing "bb" prunes both neighbours; yet "bb" is tried first because
`rulesOut` merely counts neighbours containing the word. -/
def d7 : Domains := [(vA, [wAA, wBB]), (vD, [wAA]), (vW, [wAX])]

/-- Modelled from the spec ("the number of neighboring slots' domains that
would lose at least one candidate if this word were chosen"): a neighbour
`nb` loses a candidate when restricting `domains[v]` to the chosen word
makes `revise(nb, v)` remove something. -/
def specLosers (c : Crossword) (d : Domains) (v : Variable) (value : Word) : Nat :=
  ((c.neighbors v).filter (fun nb => (revise c (domSet d v [value]) nb v).1)).length

/-- Modelled from the spec ("removes from domain[x] exactly those words w
for which no word w′ in domain[y] satisfies w[ix] == w′[iy]; agreement at
the overlap offsets is the only requirement for w′ to count as support"):
the claimed post-revision domain of `x`. -/
def specRevisedDomain (c : Crossword) (d : Domains) (x y : Variable) : List Word :=
  match c.overlapAt x y with
  | none => domGet d x
  | some (cx, cy) =>
    (domGet d x).filter (fun wx =>
      (domGet d y).any (fun wy => decide (charAt wx cx = charAt wy cy)))

/-! Basic lemmas about the dictionary operations. -/

theorem list_any_congr {α : Type} {p q : α → Bool} :
    ∀ {l : List α}, (∀ a ∈ l, p a = q a) → l.any p = l.any q
  | [], _ => rfl
  | a :: l, h => by
    simp only [List.any_cons, h a (List.mem_cons_self a l),
      list_any_congr fun b hb => h b (List.mem_cons_of_mem a hb)]

theorem domGet_domSet_ne (d : Domains) (x z : Variable) (ws : List Word)
    (h : z ≠ x) : domGet (domSet d x ws) z = domGet d z := by
  induction d with
  | nil => rfl
  | cons e rest ih =>
    by_cases he : e.1 = x
    · have hne : ¬ (e.1 = z) := fun h1 => h (h1.symm.trans he)
      simp only [domSet, if_pos he, domGet, if_neg hne]
    · simp only [domSet, if_neg he, domGet]
      split
      · rfl
      · exact ih

theorem domGet_domSet_filter (d : Domains) (x : Variable) (p : Word → Bool) :
    domGet (domSet d x ((domGet d x).filter p)) x = (domGet d x).filter p := by
  induction d with
  | nil => rfl
  | cons e rest ih =>
    by_cases he : e.1 = x
    · simp [domGet, domSet, he]
    · simp [domGet, domSet, he, ih]

theorem totalSize_domSet_lt (d : Domains) (x : Variable) (ws : List Word)
    (h : ws.length < (domGet d x).length) :
    totalSize (domSet d x ws) < totalSize d := by
  induction d with
  | nil => simp [domGet] at h
  | cons e rest ih =>
    by_cases he : e.1 = x
    · simp only [domSet, he, if_pos]
      simp only [domGet, he, if_pos] at h
      simp [totalSize]
      omega
    · simp only [domSet, he, if_neg, not_false_iff]
      simp only [domGet, he, if_neg, not_false_iff] at h
      have := ih h
      simp [totalSize] at this ⊢
      omega

theorem filter_ne_length_lt {p : Word → Bool} {l : List Word}
    (h : l.filter p ≠ l) : (l.filter p).length < l.length := by
  rcases Nat.lt_or_ge (l.filter p).length l.length with hlt | hge
  · exact hlt
  · exact absurd ((l.filter_sublist).eq_of_length
      (Nat.le_antisymm (l.length_filter_le p) hge)) h

theorem any_not_iff_filter_ne {p : Word → Bool} {l : List Word} :
    (l.any fun a => ! p a) = true ↔ l.filter p ≠ l := by
  rw [List.any_eq_true]
  constructor
  · rintro ⟨a, ha, hpa⟩ hfil
    rw [List.filter_eq_self] at hfil
    simp [hfil a ha] at hpa
  · intro hne
    by_contra hall
    push_neg at hall
    exact hne (List.filter_eq_self.2 fun a ha => by
      have := hall a ha
      simpa using this)

/-! `revise` lemmas. -/

theorem revise_of_overlap_none {c : Crossword} {d : Domains} {x y : Variable}
    (h : c.overlapAt x y = none) : revise c d x y = (false, d) := by
  simp [revise, reviseGen, h]

theorem reviseGen_eq_of_agree (f : Word → Nat → Char)
    (hf : ∀ w k, k < w.length → f w k = charAt w k)
    (c : Crossword) (d : Domains) (x y : Variable) :
    reviseGen f c d x y = reviseGen charAt c d x y := by
  unfold reviseGen
  cases hov : c.overlapAt x y with
  | none => rfl
  | some o =>
    obtain ⟨cx, cy⟩ := o
    have hpred : ∀ wx wy : Word,
        (decide (cy < wy.length) && decide (cx < wx.length) &&
          (decide (wx ≠ wy) && decide (f wx cx = f wy cy))) =
        (decide (cy < wy.length) && decide (cx < wx.length) &&
          (decide (wx ≠ wy) && decide (charAt wx cx = charAt wy cy))) := by
      intro wx wy
      by_cases h1 : cy < wy.length
      · by_cases h2 : cx < wx.length
        · rw [hf wx cx h2, hf wy cy h1]
        · simp [h2]
      · simp [h1]
    have hsup : ∀ wx : Word,
        ((domGet d y).any (fun wy =>
          decide (cy < wy.length) && decide (cx < wx.length) &&
            (decide (wx ≠ wy) && decide (f wx cx = f wy cy)))) =
        ((domGet d y).any (fun wy =>
          decide (cy < wy.length) && decide (cx < wx.length) &&
            (decide (wx ≠ wy) && decide (charAt wx cx = charAt wy cy)))) := by
      intro wx
      exact list_any_congr fun wy _ => hpred wx wy
    simp only []
    congr 1
    · exact list_any_congr fun wx _ => by rw [hsup wx]
    · congr 1
      exact List.filter_congr fun wx _ => hsup wx

theorem revise_snd_domGet_ne {c : Crossword} {d : Domains} {x y z : Variable}
    (h : z ≠ x) : domGet (revise c d x y).2 z = domGet d z := by
  unfold revise reviseGen
  cases c.overlapAt x y with
  | none => rfl
  | some o => obtain ⟨cx, cy⟩ := o; exact domGet_domSet_ne d x z _ h

theorem revise_size {c : Crossword} {d : Domains} {x y : Variable}
    (h : (revise c d x y).1 = true) :
    totalSize (revise c d x y).2 < totalSize d := by
  unfold revise reviseGen at h ⊢
  cases hov : c.overlapAt x y with
  | none => simp [hov] at h
  | some o =>
    obtain ⟨cx, cy⟩ := o
    simp only [hov] at h ⊢
    exact totalSize_domSet_lt d x _ (filter_ne_length_lt (any_not_iff_filter_ne.1 h))

/-! `ac3` worklist lemmas. -/

theorem dictSet_mem {q : Queue} {k} {v} :
    ∀ e ∈ dictSet q k v, e ∈ q ∨ e.1 = k := by
  intro e he
  unfold dictSet at he
  split at he
  · rcases List.mem_map.1 he with ⟨e0, he0, hfe⟩
    by_cases h0 : e0.1 = k
    · right; rw [if_pos h0] at hfe; rw [← hfe]
    · left; rw [if_neg h0] at hfe; rw [← hfe]; exact he0
  · rcases List.mem_append.1 he with h | h
    · left; exact h
    · right; simp at h; rw [h]

theorem dictSet_length {q : Queue} {k} {v} :
    (dictSet q k v).length ≤ q.length + 1 := by
  unfold dictSet
  split
  · simp
  · simp

theorem enqueueNeighbors_mem {c : Crossword} {x y : Variable} {q : Queue} :
    ∀ e ∈ enqueueNeighbors c x y q, e ∈ q ∨ e.1.1 ∈ c.vars := by
  unfold enqueueNeighbors
  have hsub : ∀ z ∈ c.neighbors x, z ∈ c.vars := fun z hz =>
    (List.mem_filter.1 hz).1
  revert hsub
  generalize c.neighbors x = l
  induction l generalizing q with
  | nil => intro _ e he; exact Or.inl he
  | cons z l ih =>
    intro hl e he
    simp only [List.foldl_cons] at he
    have := ih (fun z' hz' => hl z' (List.mem_cons_of_mem z hz')) e he
    rcases this with hacc | hv
    · by_cases hz : z = y
      · rw [if_pos hz] at hacc; exact Or.inl hacc
      · rw [if_neg hz] at hacc
        rcases dictSet_mem e hacc with h | h
        · exact Or.inl h
        · exact Or.inr (h ▸ hl z (List.mem_cons_self z l))
    · exact Or.inr hv

theorem foldl_dictSet_length {c : Crossword} {x y : Variable} :
    ∀ (l : List Variable) (q : Queue),
      (l.foldl (fun acc z => if z = y then acc else dictSet acc (z, x) (c.overlapAt z x))
        q).length ≤ q.length + l.length := by
  intro l
  induction l with
  | nil => intro q; simp
  | cons z l ih =>
    intro q
    simp only [List.foldl_cons]
    by_cases hz : z = y
    · rw [if_pos hz]
      have := ih q
      simp only [List.length_cons]
      omega
    · rw [if_neg hz]
      have h1 := ih (dictSet q (z, x) (c.overlapAt z x))
      have h2 : (dictSet q (z, x) (c.overlapAt z x)).length ≤ q.length + 1 := dictSet_length
      simp only [List.length_cons]
      omega

theorem enqueueNeighbors_length {c : Crossword} {x y : Variable} {q : Queue} :
    (enqueueNeighbors c x y q).length ≤ q.length + c.vars.length := by
  unfold enqueueNeighbors
  have h1 := foldl_dictSet_length (c := c) (x := x) (y := y) (c.neighbors x) q
  have h2 : (c.neighbors x).length ≤ c.vars.length := List.length_filter_le _ _
  omega

theorem ac3Go_count_le (c : Crossword) :
    ∀ (fuel : Nat) (d : Domains) (q : Queue), (ac3Go c fuel d q).2.2 ≤ totalSize d := by
  intro fuel
  induction fuel with
  | zero => intro d q; simp [ac3Go]
  | succ fuel ih =>
    intro d q
    match q with
    | [] => simp [ac3Go]
    | (arc, ov) :: rest =>
      simp only [ac3Go]
      by_cases hr : (revise c d arc.1 arc.2).1 = true
      · rw [if_pos hr]
        have hsize := revise_size hr
        by_cases hemp : (domGet (revise c d arc.1 arc.2).2 arc.1).length = 0
        · rw [if_pos hemp]
          simp only []
          omega
        · rw [if_neg hemp]
          have := ih (revise c d arc.1 arc.2).2 (enqueueNeighbors c arc.1 arc.2 rest)
          simp only []
          omega
      · rw [if_neg hr]
        exact ih d rest

theorem ac3Go_true_nonempty (c : Crossword) :
    ∀ (fuel : Nat) (d : Domains) (q : Queue) (d' : Domains) (n : Nat),
      ac3Go c fuel d q = (true, d', n) →
      ∀ x, domGet d x ≠ [] → domGet d' x ≠ [] := by
  intro fuel
  induction fuel with
  | zero =>
    intro d q d' n h x hx
    simp only [ac3Go, Prod.mk.injEq] at h
    rw [← h.2.1]
    exact hx
  | succ fuel ih =>
    intro d q d' n h x hx
    match q with
    | [] =>
      simp only [ac3Go, Prod.mk.injEq] at h
      rw [← h.2.1]
      exact hx
    | (arc, ov) :: rest =>
      simp only [ac3Go] at h
      by_cases hr : (revise c d arc.1 arc.2).1 = true
      · rw [if_pos hr] at h
        by_cases hemp : (domGet (revise c d arc.1 arc.2).2 arc.1).length = 0
        · rw [if_pos hemp] at h
          simp at h
        · rw [if_neg hemp] at h
          rcases hX : ac3Go c fuel (revise c d arc.1 arc.2).2
              (enqueueNeighbors c arc.1 arc.2 rest) with ⟨b, d2, m⟩
          rw [hX] at h
          simp only [Prod.mk.injEq] at h
          obtain ⟨hb, hd, -⟩ := h
          have hmid : domGet (revise c d arc.1 arc.2).2 x ≠ [] := by
            by_cases hzx : x = arc.1
            · subst hzx
              intro hnil
              rw [hnil] at hemp
              simp at hemp
            · rw [revise_snd_domGet_ne hzx]
              exact hx
          have := ih (revise c d arc.1 arc.2).2 (enqueueNeighbors c arc.1 arc.2 rest)
            d2 m (by rw [hX, hb]) x hmid
          rw [← hd]
          exact this
      · rw [if_neg hr] at h
        exact ih d rest d' n h x hx

theorem ac3Go_false_empty (c : Crossword) :
    ∀ (fuel : Nat) (d : Domains) (q : Queue),
      (∀ e ∈ q, e.1.1 ∈ c.vars) →
      ∀ (d' : Domains) (n : Nat), ac3Go c fuel d q = (false, d', n) →
      ∃ x ∈ c.vars, domGet d' x = [] := by
  intro fuel
  induction fuel with
  | zero =>
    intro d q _ d' n h
    simp only [ac3Go, Prod.mk.injEq] at h
    exact absurd h.1 (by simp)
  | succ fuel ih =>
    intro d q hq d' n h
    match q with
    | [] =>
      simp only [ac3Go, Prod.mk.injEq] at h
      exact absurd h.1 (by simp)
    | (arc, ov) :: rest =>
      simp only [ac3Go] at h
      by_cases hr : (revise c d arc.1 arc.2).1 = true
      · rw [if_pos hr] at h
        by_cases hemp : (domGet (revise c d arc.1 arc.2).2 arc.1).length = 0
        · rw [if_pos hemp] at h
          simp only [Prod.mk.injEq] at h
          refine ⟨arc.1, hq (arc, ov) (List.mem_cons_self _ _), ?_⟩
          rw [← h.2.1]
          exact List.length_eq_zero.1 hemp
        · rw [if_neg hemp] at h
          rcases hX : ac3Go c fuel (revise c d arc.1 arc.2).2
              (enqueueNeighbors c arc.1 arc.2 rest) with ⟨b, d2, m⟩
          rw [hX] at h
          simp only [Prod.mk.injEq] at h
          obtain ⟨hb, hd, -⟩ := h
          have hq' : ∀ e ∈ enqueueNeighbors c arc.1 arc.2 rest, e.1.1 ∈ c.vars := by
            intro e he
            rcases enqueueNeighbors_mem e he with h1 | h1
            · exact hq e (List.mem_cons_of_mem _ h1)
            · exact h1
          have := ih (revise c d arc.1 arc.2).2 (enqueueNeighbors c arc.1 arc.2 rest)
            hq' d2 m (by rw [hX, hb])
          rw [← hd]
          exact this
      · rw [if_neg hr] at h
        exact ih d rest (fun e he => hq e (List.mem_cons_of_mem _ he)) d' n h

theorem ac3Go_fuel_irrelevant (c : Crossword) :
    ∀ (f g : Nat) (d : Domains) (q : Queue),
      ac3Fuel c d q ≤ f → ac3Fuel c d q ≤ g → ac3Go c f d q = ac3Go c g d q := by
  intro f
  induction f with
  | zero =>
    intro g d q hf _
    exfalso
    unfold ac3Fuel at hf
    omega
  | succ f ih =>
    intro g d q hf hg
    cases g with
    | zero =>
      exfalso
      unfold ac3Fuel at hg
      omega
    | succ g =>
      match q with
      | [] => simp [ac3Go]
      | (arc, ov) :: rest =>
        simp only [ac3Go]
        by_cases hr : (revise c d arc.1 arc.2).1 = true
        · rw [if_pos hr, if_pos hr]
          by_cases hemp : (domGet (revise c d arc.1 arc.2).2 arc.1).length = 0
          · rw [if_pos hemp, if_pos hemp]
          · rw [if_neg hemp, if_neg hemp]
            have hsize : totalSize (revise c d arc.1 arc.2).2 + 1 ≤ totalSize d :=
              revise_size hr
            have hq1 := enqueueNeighbors_length (c := c) (x := arc.1) (y := arc.2)
              (q := rest)
            have hmul : totalSize (revise c d arc.1 arc.2).2 * (c.vars.length + 1) +
                (c.vars.length + 1) ≤ totalSize d * (c.vars.length + 1) := by
              have h2 := Nat.mul_le_mul_right (c.vars.length + 1) hsize
              rw [Nat.add_mul, one_mul] at h2
              exact h2
            have hbf : ac3Fuel c (revise c d arc.1 arc.2).2
                (enqueueNeighbors c arc.1 arc.2 rest) ≤ f := by
              unfold ac3Fuel at hf ⊢
              simp only [List.length_cons] at hf
              omega
            have hbg : ac3Fuel c (revise c d arc.1 arc.2).2
                (enqueueNeighbors c arc.1 arc.2 rest) ≤ g := by
              unfold ac3Fuel at hg ⊢
              simp only [List.length_cons] at hg
              omega
            rw [ih g (revise c d arc.1 arc.2).2 (enqueueNeighbors c arc.1 arc.2 rest)
              hbf hbg]
        · rw [if_neg hr, if_neg hr]
          refine ih g d rest ?_ ?_ <;>
            (unfold ac3Fuel at hf hg ⊢
             simp only [List.length_cons] at hf hg
             omega)

/-! Sorting lemmas for the two heuristics. -/

theorem pairSnd_sorted {α : Type} (l : List (α × Nat)) :
    List.Sorted (fun p q : α × Nat => p.2 ≤ q.2)
      (l.insertionSort (fun p q => p.2 ≤ q.2)) := by
  haveI : IsTotal (α × Nat) (fun p q : α × Nat => p.2 ≤ q.2) :=
    ⟨fun a b => Nat.le_total a.2 b.2⟩
  haveI : IsTrans (α × Nat) (fun p q : α × Nat => p.2 ≤ q.2) :=
    ⟨fun _ _ _ h1 h2 => Nat.le_trans h1 h2⟩
  exact List.sorted_insertionSort _ l

theorem insertionSort_head_min {α : Type} (l : List (α × Nat)) (e : α × Nat)
    (rest : List (α × Nat))
    (h : l.insertionSort (fun p q => p.2 ≤ q.2) = e :: rest) :
    ∀ p ∈ l, e.2 ≤ p.2 := by
  intro p hp
  have hperm := List.perm_insertionSort (fun p q : α × Nat => p.2 ≤ q.2) l
  have hmem : p ∈ e :: rest := h ▸ hperm.mem_iff.2 hp
  rcases List.mem_cons.1 hmem with h1 | h1
  · rw [h1]
  · have hs := pairSnd_sorted l
    rw [h] at hs
    exact List.rel_of_sorted_cons hs p h1

theorem select_min_helper (c : Crossword) (d : Domains) (a : Assignment)
    (v : Variable) (hv : v ∈ c.vars) (hun : aLookup a v = none) :
    ∃ u, select_unassigned_variable c d a = some u ∧ u ∈ c.vars ∧
      aLookup a u = none ∧
      ∀ z ∈ c.vars, aLookup a z = none →
        (domGet d u).length ≤ (domGet d z).length := by
  unfold select_unassigned_variable
  have hvitem : (v, (domGet d v).length) ∈
      (c.vars.filter (fun v => (aLookup a v).isNone)).map
        (fun v => (v, (domGet d v).length)) :=
    List.mem_map.2 ⟨v, List.mem_filter.2 ⟨hv, by rw [hun]; rfl⟩, rfl⟩
  rcases hs : ((c.vars.filter (fun v => (aLookup a v).isNone)).map
      (fun v => (v, (domGet d v).length))).insertionSort (fun p q => p.2 ≤ q.2) with
    _ | ⟨e, rest⟩
  · exfalso
    have hperm := List.perm_insertionSort (fun p q : Variable × Nat => p.2 ≤ q.2)
      ((c.vars.filter (fun v => (aLookup a v).isNone)).map
        (fun v => (v, (domGet d v).length)))
    rw [hs] at hperm
    exact absurd (hperm.symm.eq_nil ▸ hvitem) (List.not_mem_nil _)
  · have hperm := List.perm_insertionSort (fun p q : Variable × Nat => p.2 ≤ q.2)
      ((c.vars.filter (fun v => (aLookup a v).isNone)).map
        (fun v => (v, (domGet d v).length)))
    rw [hs] at hperm
    have hmem := hperm.mem_iff.1 (List.mem_cons_self e rest)
    rcases List.mem_map.1 hmem with ⟨u0, hu0f, hu0eq⟩
    have hfil := List.mem_filter.1 hu0f
    rw [hs]
    refine ⟨e.1, rfl, ?_, ?_, ?_⟩
    · rw [← hu0eq]
      exact hfil.1
    · rw [← hu0eq]
      exact Option.isNone_iff_eq_none.1 hfil.2
    · intro z hz hzun
      have hzitem : (z, (domGet d z).length) ∈
          (c.vars.filter (fun v => (aLookup a v).isNone)).map
            (fun v => (v, (domGet d v).length)) :=
        List.mem_map.2 ⟨z, List.mem_filter.2 ⟨hz, by rw [hzun]; rfl⟩, rfl⟩
      have hmin := insertionSort_head_min _ e rest hs _ hzitem
      have he2 : e.2 = (domGet d e.1).length := by rw [← hu0eq]
      rw [he2] at hmin
      exact hmin

/-! Assignment lemmas. -/

theorem aLookup_mem {a : Assignment} {v : Variable} {w : Word}
    (h : aLookup a v = some w) : (v, w) ∈ a := by
  induction a with
  | nil => simp [aLookup] at h
  | cons e rest ih =>
    simp only [aLookup] at h
    by_cases he : e.1 = v
    · rw [if_pos he] at h
      have h2 : e.2 = w := by injection h
      have h3 : e = (v, w) := by
        obtain ⟨e1, e2⟩ := e
        simp only at he h2
        rw [he, h2]
      rw [← h3]
      exact List.mem_cons_self _ _
    · rw [if_neg he] at h
      exact List.mem_cons_of_mem e (ih h)

theorem aLookup_isSome_of_mem_keys {a : Assignment} {v : Variable}
    (h : v ∈ a.map Prod.fst) : (aLookup a v).isSome := by
  induction a with
  | nil => simp at h
  | cons e rest ih =>
    simp only [aLookup]
    by_cases he : e.1 = v
    · rw [if_pos he]; rfl
    · rw [if_neg he]
      rw [List.map_cons] at h
      rcases List.mem_cons.1 h with h1 | h1
      · exact absurd h1.symm he
      · exact ih h1

theorem aLookup_none_not_mem_keys {a : Assignment} {v : Variable}
    (h : aLookup a v = none) : v ∉ a.map Prod.fst := by
  intro hmem
  have := aLookup_isSome_of_mem_keys hmem
  rw [h] at this
  simp at this

theorem aSet_keys_update {a : Assignment} {v : Variable} {w : Word}
    (h : (aLookup a v).isSome) :
    (aSet a v w).map Prod.fst = a.map Prod.fst := by
  unfold aSet
  rw [if_pos h]
  rw [List.map_map]
  apply List.map_congr_left
  intro e _
  by_cases he : e.1 = v
  · simp [he]
  · simp [he]

theorem aSet_keys_append {a : Assignment} {v : Variable} {w : Word}
    (h : ¬ (aLookup a v).isSome) :
    (aSet a v w).map Prod.fst = a.map Prod.fst ++ [v] := by
  unfold aSet
  rw [if_neg h]
  simp

theorem aSet_keys_nodup {a : Assignment} {v : Variable} {w : Word}
    (h : (a.map Prod.fst).Nodup) : ((aSet a v w).map Prod.fst).Nodup := by
  by_cases hs : (aLookup a v).isSome
  · rw [aSet_keys_update hs]
    exact h
  · rw [aSet_keys_append hs]
    rw [List.nodup_append]
    refine ⟨h, List.nodup_singleton v, ?_⟩
    intro u hu hv
    simp at hv
    subst hv
    exact absurd hu (aLookup_none_not_mem_keys (Option.not_isSome_iff_eq_none.1 hs))

theorem aSet_keys_subset {a : Assignment} {v : Variable} {w : Word}
    {c : Crossword} (h : ∀ u ∈ a.map Prod.fst, u ∈ c.vars) (hv : v ∈ c.vars) :
    ∀ u ∈ (aSet a v w).map Prod.fst, u ∈ c.vars := by
  by_cases hs : (aLookup a v).isSome
  · rw [aSet_keys_update hs]
    exact h
  · rw [aSet_keys_append hs]
    intro u hu
    rcases List.mem_append.1 hu with h1 | h1
    · exact h u h1
    · simp at h1
      rw [h1]
      exact hv

theorem coverage {a : Assignment} {c : Crossword}
    (hnd : (a.map Prod.fst).Nodup) (hsub : ∀ u ∈ a.map Prod.fst, u ∈ c.vars)
    (hlen : a.length = c.vars.length) :
    ∀ v ∈ c.vars, ∃ w, aLookup a v = some w := by
  have hsubperm : List.Subperm (a.map Prod.fst) c.vars :=
    List.subperm_of_subset hnd (fun u hu => hsub u hu)
  have hperm : (a.map Prod.fst).Perm c.vars := by
    refine hsubperm.perm_of_length_le ?_
    rw [List.length_map]
    omega
  intro v hv
  have hvk : v ∈ a.map Prod.fst := hperm.mem_iff.2 hv
  have := aLookup_isSome_of_mem_keys hvk
  exact Option.isSome_iff_exists.1 this

/-! `consistent` extraction lemmas. -/

theorem consistentGo_length {c : Crossword} {full : Assignment} :
    ∀ {a : Assignment} {words : List Word},
      consistentGo c full a words = true → ∀ e ∈ a, e.2.length = e.1.length := by
  intro a
  induction a with
  | nil => intro words _ e he; simp at he
  | cons p rest ih =>
    intro words h e he
    obtain ⟨v, w⟩ := p
    simp only [consistentGo] at h
    by_cases h1 : w.length ≠ v.length
    · rw [if_pos h1] at h; simp at h
    · rw [if_neg h1] at h
      by_cases h2 : w ∈ words
      · rw [if_pos h2] at h; simp at h
      · rw [if_neg h2] at h
        by_cases h3 : neighborOk c full v w = true
        · rw [if_pos h3] at h
          rcases List.mem_cons.1 he with h4 | h4
          · rw [h4]; simpa using Classical.not_not.1 h1
          · exact ih h e h4
        · rw [if_neg h3] at h; simp at h

theorem consistentGo_values {c : Crossword} {full : Assignment} :
    ∀ {a : Assignment} {words : List Word},
      consistentGo c full a words = true →
      (a.map Prod.snd).Nodup ∧ ∀ w ∈ a.map Prod.snd, w ∉ words := by
  intro a
  induction a with
  | nil => intro words _; simp
  | cons p rest ih =>
    intro words h
    obtain ⟨v, w⟩ := p
    simp only [consistentGo] at h
    by_cases h1 : w.length ≠ v.length
    · rw [if_pos h1] at h; simp at h
    · rw [if_neg h1] at h
      by_cases h2 : w ∈ words
      · rw [if_pos h2] at h; simp at h
      · rw [if_neg h2] at h
        by_cases h3 : neighborOk c full v w = true
        · rw [if_pos h3] at h
          obtain ⟨hnd, hnw⟩ := ih h
          constructor
          · simp only [List.map_cons, List.nodup_cons]
            refine ⟨?_, hnd⟩
            intro hwmem
            exact absurd (List.mem_cons_self w words) (hnw w hwmem)
          · intro w' hw'
            rw [List.map_cons] at hw'
            rcases List.mem_cons.1 hw' with h4 | h4
            · rw [h4]; exact h2
            · have := hnw w' h4
              intro hw'w
              exact this (List.mem_cons_of_mem w hw'w)
        · rw [if_neg h3] at h; simp at h

theorem consistentGo_neighbors {c : Crossword} {full : Assignment} :
    ∀ {a : Assignment} {words : List Word},
      consistentGo c full a words = true →
      ∀ e ∈ a, neighborOk c full e.1 e.2 = true := by
  intro a
  induction a with
  | nil => intro words _ e he; simp at he
  | cons p rest ih =>
    intro words h e he
    obtain ⟨v, w⟩ := p
    simp only [consistentGo] at h
    by_cases h1 : w.length ≠ v.length
    · rw [if_pos h1] at h; simp at h
    · rw [if_neg h1] at h
      by_cases h2 : w ∈ words
      · rw [if_pos h2] at h; simp at h
      · rw [if_neg h2] at h
        by_cases h3 : neighborOk c full v w = true
        · rw [if_pos h3] at h
          rcases List.mem_cons.1 he with h4 | h4
          · rw [h4]; exact h3
          · exact ih h e h4
        · rw [if_neg h3] at h; simp at h

theorem neighborOk_spec {c : Crossword} {full : Assignment} {v : Variable}
    {w : Word} (h : neighborOk c full v w = true) :
    ∀ nb ∈ c.neighbors v, ∀ wnb, aLookup full nb = some wnb →
      ∀ i j, c.overlapAt v nb = some (i, j) → charAt w i = charAt wnb j := by
  intro nb hnb wnb hwnb i j hov
  have := List.all_eq_true.1 h nb hnb
  rw [hwnb, hov] at this
  simpa using this

theorem values_nodup_distinct {a : Assignment}
    (hnd : (a.map Prod.snd).Nodup) :
    ∀ v v' w w', aLookup a v = some w → aLookup a v' = some w' → v ≠ v' →
      w ≠ w' := by
  intro v v' w w' hv hv' hne heq
  subst heq
  have h1 := aLookup_mem hv
  have h2 := aLookup_mem hv'
  have := List.inj_on_of_nodup_map hnd h1 h2 rfl
  exact hne (congrArg Prod.fst this)

/-! `backtrack` soundness: any assignment it returns was checked by
`consistent` in the frame that produced it, has no duplicate slots, mentions
only crossword slots, and is complete. -/

theorem select_some_unassigned {c : Crossword} {d : Domains} {a : Assignment}
    {u : Variable} (h : select_unassigned_variable c d a = some u) :
    u ∈ c.vars ∧ aLookup a u = none := by
  unfold select_unassigned_variable at h
  rcases hs : ((c.vars.filter (fun v => (aLookup a v).isNone)).map
      (fun v => (v, (domGet d v).length))).insertionSort (fun p q => p.2 ≤ q.2) with
    _ | ⟨e, rest⟩
  · rw [hs] at h; simp at h
  · rw [hs] at h
    simp only [Option.some.injEq] at h
    have hperm := List.perm_insertionSort (fun p q : Variable × Nat => p.2 ≤ q.2)
      ((c.vars.filter (fun v => (aLookup a v).isNone)).map
        (fun v => (v, (domGet d v).length)))
    rw [hs] at hperm
    have hmem := hperm.mem_iff.1 (List.mem_cons_self e rest)
    rcases List.mem_map.1 hmem with ⟨u0, hu0f, hu0eq⟩
    have hfil := List.mem_filter.1 hu0f
    have he1 : e.1 = u0 := by rw [← hu0eq]
    rw [← h, he1]
    exact ⟨hfil.1, Option.isNone_iff_eq_none.1 hfil.2⟩

theorem foldl_tryStep_sound (c : Crossword)
    (bt : Domains → Assignment → Option Assignment × Domains)
    (a : Assignment) (var : Variable)
    (hbt : ∀ d0 a0, consistent c a0 = true → (a0.map Prod.fst).Nodup →
      (∀ u ∈ a0.map Prod.fst, u ∈ c.vars) →
      ∀ r d', bt d0 a0 = (some r, d') →
        consistent c r = true ∧ (r.map Prod.fst).Nodup ∧
        (∀ u ∈ r.map Prod.fst, u ∈ c.vars) ∧ assignment_complete c r = true)
    (hand : (a.map Prod.fst).Nodup) (hasub : ∀ u ∈ a.map Prod.fst, u ∈ c.vars)
    (hvar : var ∈ c.vars) :
    ∀ (values : List Word) (st : Option Assignment × Domains),
      (∀ r, st.1 = some r →
        consistent c r = true ∧ (r.map Prod.fst).Nodup ∧
        (∀ u ∈ r.map Prod.fst, u ∈ c.vars) ∧ assignment_complete c r = true) →
      ∀ r d', values.foldl (tryStep c bt a var) st = (some r, d') →
        consistent c r = true ∧ (r.map Prod.fst).Nodup ∧
        (∀ u ∈ r.map Prod.fst, u ∈ c.vars) ∧ assignment_complete c r = true := by
  intro values
  induction values with
  | nil =>
    intro st hst r d' h
    simp only [List.foldl_nil] at h
    exact hst r (by rw [h])
  | cons value values ih =>
    intro st hst r d' h
    simp only [List.foldl_cons] at h
    refine ih (tryStep c bt a var st value) ?_ r d' h
    intro r' hr'
    obtain ⟨st1, std⟩ := st
    cases st1 with
    | some r0 =>
      have : tryStep c bt a var (some r0, std) value = (some r0, std) := rfl
      rw [this] at hr'
      simp only at hr'
      exact hst r' (by rw [hr'])
    | none =>
      simp only [tryStep] at hr'
      by_cases hg : ((ac3 c (domSet std var ((domGet std var).filter
          (fun w => decide (w = value)))) none).1 &&
          consistent c (aSet a var value)) = true
      · rw [if_pos hg] at hr'
        rcases hbtr : bt (ac3 c (domSet std var ((domGet std var).filter
            (fun w => decide (w = value)))) none).2.1 (aSet a var value) with ⟨res, d3⟩
        rw [hbtr] at hr'
        cases res with
        | some result =>
          simp only at hr'
          have hr'' : result = r' := by simpa using hr'
          have hcons : consistent c (aSet a var value) = true :=
            ((Bool.and_eq_true _ _ ▸ hg : _ ∧ _)).2
          have := hbt _ _ hcons (aSet_keys_nodup hand)
            (aSet_keys_subset hasub hvar) result d3 hbtr
          rw [← hr'']
          exact this
        | none =>
          simp at hr'
      · rw [if_neg hg] at hr'
        simp at hr'

theorem backtrack_sound (c : Crossword) :
    ∀ (fuel : Nat) (d : Domains) (a : Assignment),
      consistent c a = true → (a.map Prod.fst).Nodup →
      (∀ u ∈ a.map Prod.fst, u ∈ c.vars) →
      ∀ r d', backtrack c fuel d a = (some r, d') →
        consistent c r = true ∧ (r.map Prod.fst).Nodup ∧
        (∀ u ∈ r.map Prod.fst, u ∈ c.vars) ∧ assignment_complete c r = true := by
  intro fuel
  induction fuel with
  | zero =>
    intro d a _ _ _ r d' h
    simp [backtrack] at h
  | succ fuel ih =>
    intro d a hcons hnd hsub r d' h
    simp only [backtrack] at h
    by_cases hcomp : assignment_complete c a = true
    · rw [if_pos hcomp] at h
      simp only [Prod.mk.injEq, Option.some.injEq] at h
      rw [← h.1]
      exact ⟨hcons, hnd, hsub, hcomp⟩
    · rw [if_neg hcomp] at h
      cases hsel : select_unassigned_variable c d a with
      | none =>
        rw [hsel] at h
        simp at h
      | some var =>
        rw [hsel] at h
        have hvmem := (select_some_unassigned hsel).1
        exact foldl_tryStep_sound c (backtrack c fuel) a var
          (fun d0 a0 h1 h2 h3 => ih d0 a0 h1 h2 h3) hnd hsub hvmem
          _ _ (fun r0 hr0 => by simp at hr0) r d' h

/-- With an empty-domain slot present and the empty assignment, `backtrack`
selects a slot of minimal (hence zero) domain size, finds no candidate to
try, and fails without touching the domains. -/
theorem backtrack_empty_domain {c : Crossword} {d : Domains} {x : Variable}
    (hx : x ∈ c.vars) (hempty : domGet d x = []) (fuel : Nat) :
    backtrack c fuel d [] = (none, d) := by
  cases fuel with
  | zero => rfl
  | succ fuel =>
    simp only [backtrack]
    have hlen : c.vars.length ≠ 0 := by
      intro h0
      rw [List.length_eq_zero] at h0
      rw [h0] at hx
      simp at hx
    have hcomp : ¬ (assignment_complete c [] = true) := by
      unfold assignment_complete
      simp only [List.length_nil, decide_eq_true_eq]
      omega
    rw [if_neg hcomp]
    obtain ⟨u, hsel, _, _, hmin⟩ := select_min_helper c d [] x hx rfl
    rw [hsel]
    have humin := hmin x hx rfl
    rw [hempty] at humin
    simp only [List.length_nil, Nat.le_zero] at humin
    have hu_empty : domGet d u = [] := List.length_eq_zero.1 humin
    have hord : order_domain_values c d u = [] := by
      unfold order_domain_values
      rw [hu_empty]
      rfl
    show (order_domain_values c d u).foldl (tryStep c (backtrack c fuel) [] u)
      (none, d) = (none, d)
    rw [hord]
    rfl

/-! The claim theorems. -/

/-- C1: whenever `solve()` returns a complete assignment (rather than
no-solution), that assignment is valid: every slot is assigned a word of the
slot's length, the assigned words are pairwise distinct, and every pair of
neighbouring slots agrees on the characters at the overlap offsets. -/
theorem C1_solve_valid (c : Crossword) (fuel : Nat) (d : Domains)
    (a : Assignment) (dfin : Domains) (h : solve c fuel d = (some a, dfin)) :
    (∀ v ∈ c.vars, ∃ w, aLookup a v = some w ∧ w.length = v.length) ∧
    (∀ v v' w w', aLookup a v = some w → aLookup a v' = some w' → v ≠ v' →
      w ≠ w') ∧
    (∀ v v' w w' i j, aLookup a v = some w → aLookup a v' = some w' →
      v' ∈ c.neighbors v → c.overlapAt v v' = some (i, j) →
      charAt w i = charAt w' j) := by
  unfold solve at h
  obtain ⟨hcons, hnd, hsub, hcomp⟩ :=
    backtrack_sound c fuel _ [] rfl (by simp) (by simp) a dfin h
  unfold consistent at hcons
  have hlen : a.length = c.vars.length := by
    unfold assignment_complete at hcomp
    exact of_decide_eq_true hcomp
  refine ⟨?_, ?_, ?_⟩
  · intro v hv
    obtain ⟨w, hw⟩ := coverage hnd hsub hlen v hv
    refine ⟨w, hw, ?_⟩
    exact consistentGo_length hcons (v, w) (aLookup_mem hw)
  · exact values_nodup_distinct (consistentGo_values hcons).1
  · intro v v' w w' i j hv hv' hnb hov
    have hok := consistentGo_neighbors hcons (v, w) (aLookup_mem hv)
    exact neighborOk_spec hok v' hnb w' hv' i j hov

/-- C1 witness: on the two-slot cross with dictionary {"ab", "ac"},
`solve` returns the assignment `vA ↦ "ab", vD ↦ "ac"`, and the three
validity properties hold of it. -/
theorem C1_witness :
    solve cW 9 dW = (some [(vA, wAB), (vD, wAC)], [(vA, [wAB]), (vD, [wAC])]) ∧
    ((∀ v ∈ cW.vars, ∃ w, aLookup [(vA, wAB), (vD, wAC)] v = some w ∧
        w.length = v.length) ∧
      (∀ v v' w w', aLookup [(vA, wAB), (vD, wAC)] v = some w →
        aLookup [(vA, wAB), (vD, wAC)] v' = some w' → v ≠ v' → w ≠ w') ∧
      (∀ v v' w w' i j, aLookup [(vA, wAB), (vD, wAC)] v = some w →
        aLookup [(vA, wAB), (vD, wAC)] v' = some w' → v' ∈ cW.neighbors v →
        cW.overlapAt v v' = some (i, j) → charAt w i = charAt w' j)) :=
  ⟨by decide, C1_solve_valid cW 9 dW [(vA, wAB), (vD, wAC)]
    [(vA, [wAB]), (vD, [wAC])] (by decide)⟩

/-- C2 counterexample: on `cC2` the arc-consistency pass that `solve` runs
fails (it empties `vA`'s domain), yet `solve` still invokes the backtracking
search — the flag recording that generate.py:96 ran is `true` — contradicting
"returns no-solution immediately without invoking the backtracking search".
(The returned result is still no-solution.) -/
theorem C2_counterexample :
    (ac3 cC2 (enforce_node_consistency dC2) none).1 = false ∧
    (solveTraced cC2 9 dC2).2 = true ∧ (solveTraced cC2 9 dC2).1.1 = none :=
  ⟨by decide, rfl, by decide⟩

/-- C2 amended: `solve()` runs node consistency, then `ac3`, but discards
`ac3`'s result and always invokes `backtrack`; when the propagation fails,
the search immediately selects a slot whose domain is empty, has no
candidate to try, and returns no-solution — so the outcome is no-solution,
reached through the search rather than instead of it. -/
theorem C2_solve_none_after_failed_propagation (c : Crossword) (fuel : Nat)
    (d : Domains) (hwf : ∀ e ∈ c.overlaps, e.1.1 ∈ c.vars)
    (hfail : (ac3 c (enforce_node_consistency d) none).1 = false) :
    (solve c fuel d).1 = none := by
  unfold solve
  unfold ac3 at hfail ⊢
  dsimp only at hfail ⊢
  have hq : ∀ e ∈ removeNone c.overlaps, e.1.1 ∈ c.vars := by
    intro e he
    unfold removeNone at he
    exact hwf e (List.mem_filter.1 he).1
  rcases hX : ac3Go c
      (ac3Fuel c (enforce_node_consistency d) (removeNone c.overlaps))
      (enforce_node_consistency d) (removeNone c.overlaps) with ⟨b, d2, n⟩
  rw [hX] at hfail
  simp only at hfail ⊢
  obtain ⟨x, hxv, hxe⟩ := ac3Go_false_empty c _ _ _ hq d2 n (by rw [hX, hfail])
  rw [backtrack_empty_domain hxv hxe fuel]

/-- C2 amended witness: the hypotheses hold of `cC2` and the conclusion
follows by the amended theorem. -/
theorem C2_amended_witness :
    (∀ e ∈ cC2.overlaps, e.1.1 ∈ cC2.vars) ∧
    (ac3 cC2 (enforce_node_consistency dC2) none).1 = false ∧
    (solve cC2 9 dC2).1 = none :=
  ⟨by decide, by decide,
    C2_solve_none_after_failed_propagation cC2 9 dC2 (by decide) (by decide)⟩

/-- C3: the code evaluated at the failing input.  On `cB` (a cross `vA`/`vD`
plus a disjoint slot `vT`, dictionary {"ab", "ac"}) the search fails — so
by the claim every tried candidate failed and every frame should have
restored domain and assignment exactly — yet the domains after `solve` are
not the domains the search started from: the `ac3()` call made inside the
`vA ↦ "ab"` attempt pruned "ab" out of `domains[vD]` and the restoration
loop (generate.py:282-283) only re-adds `inferenceValues` into
`domains[var]`, so the pruning survives; likewise `vA`'s own domain loses
"ac", which the failed `vA ↦ "ac"` attempt's `ac3()` removed from
`domains[vA]` itself. -/
theorem C3_restoration_failure :
    (solve cB 9 dB).1 = none ∧
    (ac3 cB (enforce_node_consistency dB) none).2.1 = dB ∧
    domGet (solve cB 9 dB).2 vD = [wAC] ∧
    domGet (solve cB 9 dB).2 vA = [wAB] :=
  ⟨by decide, by decide, by decide, by decide⟩

/-- C4 counterexample: on domains `{vA ↦ {"ab"}, vD ↦ {"ab"}}` with overlap
(0, 0), every word of `domains[vA]` has a word in `domains[vD]` agreeing at
the overlap offsets (namely "ab" itself), so by the claim — for which
agreement is the only requirement for support — nothing should be removed
and `revise` should return false; the code removes "ab" and returns true,
because its support test also requires `domainX != domainY`. -/
theorem C4_counterexample :
    cW.overlapAt vA vD = some (0, 0) ∧
    (∀ w ∈ domGet d4 vA, ∃ w' ∈ domGet d4 vD, charAt w 0 = charAt w' 0) ∧
    (revise cW d4 vA vD).1 = true ∧
    domGet (revise cW d4 vA vD).2 vA = [] ∧
    specRevisedDomain cW d4 vA vD = [wAB] :=
  ⟨by decide, by decide, by decide, by decide, by decide⟩

/-- C4 amended: for slots with overlap (ix, iy), `revise(x, y)` removes from
`domain[x]` exactly the words `w` with no support `w′` in `domain[y]`, where
support requires `w′ ≠ w` and the length guards `ix < |w|`, `iy < |w′|` in
addition to agreement at the overlap offsets; every other slot's domain
(in particular `domain[y]`, since x ≠ y) is unchanged, and the returned
flag is true iff at least one word was removed. -/
theorem C4_revise_amended (c : Crossword) (d : Domains) (x y : Variable)
    (ix iy : Nat) (hov : c.overlapAt x y = some (ix, iy)) :
    domGet (revise c d x y).2 x = (domGet d x).filter (fun w =>
      decide (∃ w' ∈ domGet d y, w' ≠ w ∧ ix < w.length ∧ iy < w'.length ∧
        charAt w ix = charAt w' iy)) ∧
    (∀ z, z ≠ x → domGet (revise c d x y).2 z = domGet d z) ∧
    ((revise c d x y).1 = true ↔ domGet (revise c d x y).2 x ≠ domGet d x) := by
  have hpred : ∀ wx : Word,
      ((domGet d y).any (fun wy =>
        decide (iy < wy.length) && decide (ix < wx.length) &&
          (decide (wx ≠ wy) && decide (charAt wx ix = charAt wy iy)))) =
      decide (∃ w' ∈ domGet d y, w' ≠ wx ∧ ix < wx.length ∧ iy < w'.length ∧
        charAt wx ix = charAt w' iy) := by
    intro wx
    rcases Bool.eq_false_or_eq_true (decide (∃ w' ∈ domGet d y, w' ≠ wx ∧
        ix < wx.length ∧ iy < w'.length ∧ charAt wx ix = charAt w' iy)) with
      hd | hd <;> rw [hd]
    · rw [decide_eq_true_eq] at hd
      rcases hd with ⟨w', hw', hne, hix, hiy, heq⟩
      refine List.any_eq_true.2 ⟨w', hw', ?_⟩
      simp only [Bool.and_eq_true, decide_eq_true_eq]
      exact ⟨⟨hiy, hix⟩, Ne.symm hne, heq⟩
    · rw [decide_eq_false_iff_not] at hd
      rw [Bool.eq_false_iff]
      intro hany
      rcases List.any_eq_true.1 hany with ⟨wy, hwy, hb⟩
      simp only [Bool.and_eq_true, decide_eq_true_eq] at hb
      exact hd ⟨wy, hwy, Ne.symm hb.2.1, hb.1.2, hb.1.1, hb.2.2⟩
  refine ⟨?_, ?_, ?_⟩
  · unfold revise reviseGen
    rw [hov]
    simp only []
    rw [domGet_domSet_filter]
    exact List.filter_congr fun wx _ => hpred wx
  · intro z hz
    exact revise_snd_domGet_ne hz
  · unfold revise reviseGen
    rw [hov]
    simp only []
    rw [domGet_domSet_filter]
    exact any_not_iff_filter_ne

/-- C4 amended witness: instantiated on the solvable cross `cW` with
domains `dW`. -/
theorem C4_amended_witness :
    cW.overlapAt vA vD = some (0, 0) ∧
    (domGet (revise cW dW vA vD).2 vA = (domGet dW vA).filter (fun w =>
      decide (∃ w' ∈ domGet dW vD, w' ≠ w ∧ 0 < w.length ∧ 0 < w'.length ∧
        charAt w 0 = charAt w' 0)) ∧
    (∀ z, z ≠ vA → domGet (revise cW dW vA vD).2 z = domGet dW z) ∧
    ((revise cW dW vA vD).1 = true ↔
      domGet (revise cW dW vA vD).2 vA ≠ domGet dW vA)) :=
  ⟨by decide, C4_revise_amended cW dW vA vD 0 0 (by decide)⟩

/-- C5 counterexample: on `c5` (a length-2 slot and a disjoint length-3
slot, dictionary {"ab"}) node consistency empties `vL3`'s domain; `ac3`
then starts with an empty worklist (no slot pair overlaps), returns
success, and `vL3`'s domain is still empty — contradicting "when it
returns success, no slot's domain is empty". -/
theorem C5_counterexample :
    (ac3 c5 (enforce_node_consistency d5) none).1 = true ∧
    vL3 ∈ c5.vars ∧
    domGet (ac3 c5 (enforce_node_consistency d5) none).2.1 vL3 = [] :=
  ⟨by decide, by decide, by decide⟩

/-- C5 amended: `ac3` fails as soon as a revision empties the revised
slot's domain — when the loop pops an arc `(x, y)` whose revision removes
words and leaves `domain[x]` empty, it immediately returns failure with
that domain state, counting exactly that one productive revision and
processing no further arcs (generate.py:159-161) — and on success every
slot whose domain was nonempty at entry still has a nonempty domain; but a
domain already empty at entry (e.g. emptied by node consistency on a slot
with no arcs in the worklist) survives success, so success does not
guarantee that every domain is nonempty. -/
theorem C5_ac3_failfast_and_nonempty (c : Crossword) (d : Domains) :
    (∀ (fuel : Nat) (x y : Variable) (ov : Option (Nat × Nat)) (rest : Queue),
      (revise c d x y).1 = true → domGet (revise c d x y).2 x = [] →
      ac3Go c (fuel + 1) d (((x, y), ov) :: rest) =
        (false, (revise c d x y).2, 1)) ∧
    (∀ (arcs : Option Queue) (d' : Domains) (n : Nat),
      ac3 c d arcs = (true, d', n) → ∀ x, domGet d x ≠ [] → domGet d' x ≠ []) := by
  constructor
  · intro fuel x y ov rest hr hemp
    simp only [ac3Go]
    rw [if_pos hr, if_pos (by rw [hemp]; rfl)]
  · intro arcs d' n h
    unfold ac3 at h
    cases arcs with
    | none => exact ac3Go_true_nonempty c _ d _ d' n h
    | some q => exact ac3Go_true_nonempty c _ d _ d' n h

/-- C5 amended witness: both parts applied concretely.  On `cC2`, revising
`vA` against `vW` empties `vA`'s domain and the loop returns failure at
that very arc with one productive revision; on the `c5` run, the slot `vA`
keeps its nonempty domain through the successful propagation. -/
theorem C5_amended_witness :
    (revise cC2 dC2 vA vW).1 = true ∧
    domGet (revise cC2 dC2 vA vW).2 vA = [] ∧
    ac3Go cC2 4 dC2 [((vA, vW), some (1, 0))] =
      (false, (revise cC2 dC2 vA vW).2, 1) ∧
    ac3 c5 (enforce_node_consistency d5) none =
      (true, [(vA, [wAB]), (vL3, [])], 0) ∧
    (∀ x, domGet (enforce_node_consistency d5) x ≠ [] →
      domGet [(vA, [wAB]), (vL3, [])] x ≠ []) :=
  ⟨by decide, by decide,
    (C5_ac3_failfast_and_nonempty cC2 dC2).1 3 vA vW (some (1, 0)) []
      (by decide) (by decide),
    by decide,
    (C5_ac3_failfast_and_nonempty c5 (enforce_node_consistency d5)).2 none
      [(vA, [wAB]), (vL3, [])] 0 (by decide)⟩

/-- C6 counterexample: on `c6` with all slots unassigned, `vA` and `vT6`
tie for the minimum domain size (1), `vT6` has the higher degree (2
neighbours vs 1), yet the code returns `vA` — the first tied slot in
iteration order; the degree heuristic of the claim is never consulted. -/
theorem C6_counterexample :
    select_unassigned_variable c6 d6 [] = some vA ∧
    (domGet d6 vA).length = 1 ∧ (domGet d6 vT6).length = 1 ∧
    (domGet d6 vD).length = 2 ∧ (domGet d6 vW).length = 2 ∧
    (c6.neighbors vA).length = 1 ∧ (c6.neighbors vT6).length = 2 :=
  ⟨by decide, by decide, by decide, by decide, by decide, by decide, by decide⟩

/-- C6 amended: among the unassigned slots, selection returns one with the
minimum number of remaining candidates — the first such slot in the
iteration order of the variable set — and ignores degree entirely. -/
theorem C6_select_amended (c : Crossword) (d : Domains) (a : Assignment)
    (v : Variable) (hv : v ∈ c.vars) (hun : aLookup a v = none) :
    ∃ u, select_unassigned_variable c d a = some u ∧ u ∈ c.vars ∧
      aLookup a u = none ∧
      ∀ z ∈ c.vars, aLookup a z = none →
        (domGet d u).length ≤ (domGet d z).length :=
  select_min_helper c d a v hv hun

/-- C6 amended witness: instantiated on `c6`. -/
theorem C6_amended_witness :
    vA ∈ c6.vars ∧ aLookup [] vA = none ∧
    (∃ u, select_unassigned_variable c6 d6 [] = some u ∧ u ∈ c6.vars ∧
      aLookup [] u = none ∧
      ∀ z ∈ c6.vars, aLookup [] z = none →
        (domGet d6 u).length ≤ (domGet d6 z).length) :=
  ⟨by decide, rfl, C6_select_amended c6 d6 [] vA (by decide) rfl⟩

/-- C7 counterexample: on `c7`, choosing "bb" for `vA` would make both
neighbouring domains lose a candidate while choosing "aa" would make only
one lose, yet the code returns ["bb", "aa"] — "bb" first — because its sort
key merely counts the neighbours whose domain contains the word, not the
knock-on eliminations; the output is therefore not sorted ascending by the
claimed key. -/
theorem C7_counterexample :
    order_domain_values c7 d7 vA = [wBB, wAA] ∧
    specLosers c7 d7 vA wBB = 2 ∧ specLosers c7 d7 vA wAA = 1 :=
  ⟨by decide, by decide, by decide⟩

/-- C7 amended: value ordering returns all words of the slot's current
domain (a permutation — nothing filtered, nothing duplicated), sorted
ascending by the number of neighbouring slots whose current domain contains
the word (Python's stable sort on the `rulesOut` count), not by the number
of neighbouring domains that would lose a candidate. -/
theorem C7_order_amended (c : Crossword) (d : Domains) (v : Variable) :
    (order_domain_values c d v).Perm (domGet d v) ∧
    List.Pairwise (fun w1 w2 => rulesOut c d v w1 ≤ rulesOut c d v w2)
      (order_domain_values c d v) := by
  have hperm := List.perm_insertionSort (fun p q : Word × Nat => p.2 ≤ q.2)
    ((domGet d v).map (fun w => (w, rulesOut c d v w)))
  constructor
  · unfold order_domain_values
    have h1 := hperm.map Prod.fst
    rw [List.map_map] at h1
    have h2 : (domGet d v).map (Prod.fst ∘ fun w => (w, rulesOut c d v w)) =
        domGet d v := by
      have : (Prod.fst ∘ fun w => (w, rulesOut c d v w)) = fun w : Word => w := rfl
      rw [this, List.map_id']
    rwa [h2] at h1
  · unfold order_domain_values
    rw [List.pairwise_map]
    have hsorted := pairSnd_sorted ((domGet d v).map (fun w => (w, rulesOut c d v w)))
    refine List.Pairwise.imp_of_mem ?_ hsorted
    intro p q hp hq hrel
    rcases List.mem_map.1 (hperm.subset hp) with ⟨w1, _, hw1⟩
    rcases List.mem_map.1 (hperm.subset hq) with ⟨w2, _, hw2⟩
    rw [← hw1, ← hw2] at hrel ⊢
    simpa using hrel

/-- C8: `enforce_node_consistency` removes from each slot's domain exactly
the words whose length differs from the slot's length, and it is
idempotent: a second run removes nothing and yields the same domains. -/
theorem C8_node_consistency (d : Domains) (v : Variable) :
    domGet (enforce_node_consistency d) v =
      (domGet d v).filter (fun w => decide (v.length = w.length)) ∧
    enforce_node_consistency (enforce_node_consistency d) =
      enforce_node_consistency d := by
  constructor
  · induction d with
    | nil => rfl
    | cons e rest ih =>
      by_cases he : e.1 = v
      · simp only [enforce_node_consistency, List.map_cons, domGet, if_pos he, he]
        simp
      · simpa only [enforce_node_consistency, List.map_cons, domGet, if_neg he]
          using ih
  · unfold enforce_node_consistency
    rw [List.map_map]
    apply List.map_congr_left
    intro e _
    simp only [Function.comp]
    rw [List.filter_filter]
    congr 1
    apply List.filter_congr
    intro w _
    simp

/-- C9: the `ac3` worklist loop terminates on every input: the computable
fuel `ac3Fuel` — linear in queue length and total candidate count — is
always sufficient (any larger fuel computes the same result), and the
number of productive revisions it performs is at most the total candidate
count across all domains, because each productive revision removes at least
one word from a finite, only-shrinking domain. -/
theorem C9_ac3_terminates (c : Crossword) (d : Domains) (q : Queue)
    (arcs : Option Queue) (fuel : Nat) (h : ac3Fuel c d q ≤ fuel) :
    ac3Go c fuel d q = ac3Go c (ac3Fuel c d q) d q ∧
    (ac3Go c fuel d q).2.2 ≤ totalSize d ∧
    (ac3 c d arcs).2.2 ≤ totalSize d := by
  refine ⟨ac3Go_fuel_irrelevant c fuel (ac3Fuel c d q) d q h (Nat.le_refl _),
    ac3Go_count_le c fuel d q, ?_⟩
  unfold ac3
  cases arcs with
  | none => exact ac3Go_count_le c _ d _
  | some q0 => exact ac3Go_count_le c _ d _

/-- C9 witness: instantiated on the `cW` run with its full worklist. -/
theorem C9_witness :
    ac3Fuel cW dW (removeNone cW.overlaps) ≤ 20 ∧
    (ac3Go cW 20 dW (removeNone cW.overlaps) =
      ac3Go cW (ac3Fuel cW dW (removeNone cW.overlaps)) dW
        (removeNone cW.overlaps) ∧
    (ac3Go cW 20 dW (removeNone cW.overlaps)).2.2 ≤ totalSize dW ∧
    (ac3 cW dW none).2.2 ≤ totalSize dW) :=
  ⟨by decide, C9_ac3_terminates cW dW (removeNone cW.overlaps) none 20 (by decide)⟩

/-- C10: `revise` is total at its interface: on a pair whose overlap entry
is `None` it returns false and leaves every domain unchanged; and its
character comparisons are guarded by the explicit length checks, so its
result does not depend on what string indexing would return out of range —
any accessor agreeing with indexing on in-range positions yields the same
result. -/
theorem C10_revise_total (c : Crossword) (d : Domains) (x y : Variable) :
    (c.overlapAt x y = none → revise c d x y = (false, d)) ∧
    (∀ chr : Word → Nat → Char,
      (∀ w k, k < w.length → chr w k = charAt w k) →
      reviseGen chr c d x y = revise c d x y) := by
  constructor
  · intro h
    exact revise_of_overlap_none h
  · intro chr hchr
    exact reviseGen_eq_of_agree chr hchr c d x y

/-- C10 witness: instantiated on `cB` — the `(vA, vT)` pair has a `None`
overlap entry, and an accessor with a different out-of-range default gives
the same revision on the `(vA, vD)` pair. -/
theorem C10_witness :
    cB.overlapAt vA vT = none ∧ revise cB dB vA vT = (false, dB) ∧
    reviseGen (fun w k => w.getD k 'Z') cB dB vA vD = revise cB dB vA vD :=
  ⟨by decide, (C10_revise_total cB dB vA vT).1 (by decide),
    (C10_revise_total cB dB vA vD).2 (fun w k => w.getD k 'Z')
      (fun w k hk => by
        show List.getD w k 'Z' = charAt w k
        simp only [charAt, List.getD_eq_getElem?_getD,
          List.getElem?_eq_getElem hk, Option.getD_some])⟩
